import Mathlib

/-!
Shallow embedding of the ADAPT-VQE example material of the Tangelo repository:
the Hamiltonian-inspired operator-pool builder `get_pool` from the ADAPT
notebook, the penalty-Hamiltonian composition cell of the same notebook, the
hardware-efficient-ansatz (HEA) class of the custom-ansatz notebook, and the
ADAPT controller state machine described by the specification.
-/

/-- Single-qubit Pauli actions that may occur in a `QubitOperator` term key
(the identity never occurs inside a term tuple). -/
inductive PauliAct where
  | Z
  | X
  | Y
deriving DecidableEq, Repr

/-- One Hamiltonian term key: the tuple of (qubit index, Pauli action) pairs. -/
abbrev PTerm := List (Nat × PauliAct)

/-- The four symbols of `pauli_reverse_lookup = ['I', 'Z', 'X', 'Y']`. -/
inductive P4 where
  | I
  | Z
  | X
  | Y
deriving DecidableEq, Repr

/-- Complex rational as (real part, imaginary part); coefficients in the
notebook are literals such as `1.0j`. -/
abbrev Cplx := ℚ × ℚ

/-- The generator tuple produced for a pool entry. -/
abbrev OpTuple := List (Nat × P4)

/-- A `QubitOperator(operator_tuple, coefficient)` value. -/
abbrev GenOp := OpTuple × Cplx

/-- `pauli_lookup = \x7b'Z':1, 'X':2, 'Y':3\x7d` from `get_pool`. -/
def pauli_lookup : PauliAct → Nat
  | .Z => 1
  | .X => 2
  | .Y => 3

/-- `pauli_reverse_lookup = ['I', 'Z', 'X', 'Y']` from `get_pool`; the code
only ever indexes it with 2 or 3 (values beyond the list are junk). -/
def pauli_reverse_lookup : Nat → P4
  | 0 => .I
  | 1 => .Z
  | 2 => .X
  | 3 => .Y
  | _ => .I

/-- Body of the `for index, action in term` loop of `get_pool`: store
`pauli_lookup[action]` at `index` when `pauli_lookup[action] > 1`. -/
def storeFactor (ps : List Nat) (ia : Nat × PauliAct) : List Nat :=
  if pauli_lookup ia.2 > 1 then ps.set ia.1 (pauli_lookup ia.2) else ps

/-- The `pauli_string` array of `get_pool`: start from `np.zeros(n_qubits)`
and store the lookup value of every X/Y factor of the term. -/
def buildPauliString (n_qubits : Nat) (term : PTerm) : List Nat :=
  term.foldl storeFactor (List.replicate n_qubits 0)

/-- `action_mask = tuple(pauli_string > 1)`. -/
def actionMask (ps : List Nat) : List Bool :=
  ps.map (fun v => decide (v > 1))

/-- `pauli_string[flip_index] += (-1)**(pauli_string[flip_index] % 2)`,
expressed on natural numbers: even values go up by one, odd values down. -/
def flipVal (v : Nat) : Nat :=
  if v % 2 = 0 then v + 1 else v - 1

/-- `operator_tuple = tuple([(index, pauli_reverse_lookup[pauli]) for index,
pauli in enumerate(pauli_string) if pauli > 0])`. -/
def operatorTuple (ps : List Nat) : OpTuple :=
  (ps.enum.filter (fun p => p.2 > 0)).map
    (fun p => (p.1, pauli_reverse_lookup p.2))

/-- The mutable loop state of `get_pool`: the list of used action masks and
the two output lists. -/
structure PoolState where
  indices : List (List Bool)
  pool_generators : List GenOp
  pool_tuples : List OpTuple
deriving DecidableEq, Repr

/-- Initial loop state: `pool_generators, pool_tuples = list(), list()` and
`indices = list()`. -/
def initPoolState : PoolState :=
  ⟨[], [], []⟩

/-- One iteration of the `for term in qubit_hamiltonian.terms` loop of
`get_pool`: build `pauli_string`, skip the term when its action mask was
already used, and when the entry sum is even and positive flip the first X/Y
factor, record the mask, and append the generator `QubitOperator(tuple, 1j)`. -/
def get_pool_step (n_qubits : Nat) (s : PoolState) (term : PTerm) : PoolState :=
  let pauli_string := buildPauliString n_qubits term
  let action_mask := actionMask pauli_string
  if action_mask ∈ s.indices then s
  else if pauli_string.sum % 2 = 0 ∧ pauli_string.sum > 0 then
    let flip_index := pauli_string.findIdx (fun v => decide (v > 1))
    let flipped := pauli_string.set flip_index (flipVal (pauli_string.getD flip_index 0))
    let operator_tuple := operatorTuple flipped
    { indices := s.indices ++ [action_mask],
      pool_generators := s.pool_generators ++ [(operator_tuple, ((0 : ℚ), (1 : ℚ)))],
      pool_tuples := s.pool_tuples ++ [operator_tuple] }
  else s

/-- `get_pool(qubit_hamiltonian, n_qubits)`: fold the loop body over the
ordered term keys of the Hamiltonian and return `pool_generators`. -/
def get_pool (qubit_hamiltonian : List PTerm) (n_qubits : Nat) : List GenOp :=
  (qubit_hamiltonian.foldl (get_pool_step n_qubits) initPoolState).pool_generators

/-- A qubit Hamiltonian as an ordered mapping of term keys to coefficients
(the insertion-ordered `terms` dict of a `QubitOperator`). -/
abbrev QubitHam := List (PTerm × Cplx)

/-- `get_pool` applied to a full Hamiltonian: the loop iterates over the
ordered keys only. -/
def get_poolH (qubit_hamiltonian : QubitHam) (n_qubits : Nat) : List GenOp :=
  get_pool (qubit_hamiltonian.map Prod.fst) n_qubits

/-- Number of Y factors of a term key. -/
def countY (term : PTerm) : Nat :=
  (term.filter (fun ia => ia.2 = PauliAct.Y)).length

/-- Number of X factors of a term key. -/
def countX (term : PTerm) : Nat :=
  (term.filter (fun ia => ia.2 = PauliAct.X)).length

/-- The term has at least one X or Y factor. -/
def HasXY (term : PTerm) : Prop :=
  ∃ ia ∈ term, ia.2 = PauliAct.X ∨ ia.2 = PauliAct.Y

instance (term : PTerm) : Decidable (HasXY term) := by
  unfold HasXY
  infer_instance

/-- Well-formed term on `n` qubits: all qubit indices are in range (the
NumPy store would fail otherwise) and no qubit index repeats (term keys of a
`QubitOperator` are sorted and duplicate-free). -/
def ValidTerm (n_qubits : Nat) (term : PTerm) : Prop :=
  (∀ ia ∈ term, ia.1 < n_qubits) ∧ (term.map Prod.fst).Nodup

instance (n : Nat) (term : PTerm) : Decidable (ValidTerm n term) := by
  unfold ValidTerm
  infer_instance

/-- The action mask of a term as `get_pool` computes it. -/
def termMask (n_qubits : Nat) (term : PTerm) : List Bool :=
  actionMask (buildPauliString n_qubits term)

/-- Embedding of the single-qubit symbols into the output alphabet. -/
def toP4 : PauliAct → P4
  | .Z => .Z
  | .X => .X
  | .Y => .Y

/-- The X/Y partner swap performed on the first X/Y factor (Z is junk: the
flip is only ever applied to an X or Y factor). -/
def flipP4 : PauliAct → P4
  | .Z => .Z
  | .X => .Y
  | .Y => .X

/-- The set of qubits on which a produced generator acts, read back from its
operator tuple, as a mask of the same shape as `action_mask`. -/
def genSupport (n_qubits : Nat) (g : GenOp) : List Bool :=
  (List.range n_qubits).map (fun i => g.1.any (fun jp => decide (jp.1 = i)))

/-- `flip_index = np.where(pauli_string > 1)[0][0]`: index of the first X/Y
entry of the pauli string. -/
def flip_index (n_qubits : Nat) (term : PTerm) : Nat :=
  (buildPauliString n_qubits term).findIdx (fun v => decide (v > 1))

/-- The pauli string after the in-place partner flip of its first X/Y
entry. -/
def flippedString (n_qubits : Nat) (term : PTerm) : List Nat :=
  (buildPauliString n_qubits term).set (flip_index n_qubits term)
    (flipVal ((buildPauliString n_qubits term).getD (flip_index n_qubits term) 0))

/-- The operator tuple a term contributes when accepted. -/
def flippedTuple (n_qubits : Nat) (term : PTerm) : OpTuple :=
  operatorTuple (flippedString n_qubits term)

/-! ## Penalty-term composition (notebook cell building the penalized run) -/

/-- Complex addition on coefficient pairs. -/
def cadd (a b : Cplx) : Cplx :=
  (a.1 + b.1, a.2 + b.2)

/-- One step of `QubitOperator.__iadd__`: when the term key is already
present its coefficient is updated in place, otherwise the pair is appended
to the insertion-ordered dict. -/
def dictAddTerm (h : QubitHam) (t : PTerm) (c : Cplx) : QubitHam :=
  if h.any (fun p => decide (p.1 = t)) then
    h.map (fun p => if p.1 = t then (p.1, cadd p.2 c) else p)
  else h ++ [(t, c)]

/-- `QubitOperator` addition: fold the right operand's term dict into the
left one. -/
def hamAdd (a b : QubitHam) : QubitHam :=
  b.foldl (fun h tc => dictAddTerm h tc.1 tc.2) a

/-- Dict lookup of a term coefficient, zero when absent. -/
def coeffOf (h : QubitHam) (t : PTerm) : Cplx :=
  match h.find? (fun p => decide (p.1 = t)) with
  | some p => p.2
  | none => ((0 : ℚ), (0 : ℚ))

/-- The three Hamiltonian roles appearing in the penalized ADAPT run of the
notebook. -/
structure PenalizedRun where
  workingHam : QubitHam
  poolArgsHam : QubitHam
  reportedHam : QubitHam

/-- The penalty cells of the ADAPT notebook: `qubit_hamiltonian_with_pen =
qubit_hamiltonian + pen_qubit_hamiltonian` is built once and handed to
`opt_dict` both as the working `qubit_hamiltonian` and inside `pool_args`,
while the final reporting cell evaluates `operator_expectation` on the
original unpenalized `qubit_operator`. -/
def penaltySetup (qubit_hamiltonian pen_qubit_hamiltonian : QubitHam) : PenalizedRun :=
  let qubit_hamiltonian_with_pen := hamAdd qubit_hamiltonian pen_qubit_hamiltonian
  { workingHam := qubit_hamiltonian_with_pen,
    poolArgsHam := qubit_hamiltonian_with_pen,
    reportedHam := qubit_hamiltonian }

/-! ## ADAPT controller state machine -/

/-- Accumulated controller state: the ansatz as (generator, parameter) pairs
and the energy history. -/
structure AdaptState where
  ansatz : List (GenOp × ℚ)
  energies : List ℚ
deriving Repr

/-- The termination variants of the controller. -/
inductive AdaptStatus where
  | CONTINUE
  | CONVERGED
  | EXHAUSTED
deriving DecidableEq, Repr

/-- Modelled from the spec: the GradientRanker maximum — the largest absolute
gradient over the pool (zero for an empty pool, the degenerate case the spec
treats as immediate convergence). The GradientRanker implementation of
ADAPTSolver is not included under src/. -/
def maxAbsGradient (grad : GenOp → ℚ) (pool : List GenOp) : ℚ :=
  pool.foldl (fun m g => max m |grad g|) 0

/-- Modelled from the spec: deterministic tie-break — the first pool element
in insertion order attaining the maximal absolute gradient. -/
def selectBest (grad : GenOp → ℚ) (pool : List GenOp) : Option GenOp :=
  pool.find? (fun g => decide (|grad g| = maxAbsGradient grad pool))

/-- Modelled from the spec: the ADAPTController RANKING/OPTIMIZING cycle of
spec 4.3 (the ADAPTSolver implementation is not included under src/). Each
cycle ranks the pool; a maximal gradient magnitude below tolerance stops with
CONVERGED, an exhausted cycle budget stops with EXHAUSTED, and otherwise the
selected generator is appended at parameter zero, the whole parameter vector
is re-optimized, and the resulting energy is recorded. `grad`, `optimize`
and `energy` are the external evaluator/optimizer oracles. -/
def adaptLoop (pool : List GenOp) (grad : List (GenOp × ℚ) → GenOp → ℚ)
    (optimize : List (GenOp × ℚ) → List ℚ) (energy : List (GenOp × ℚ) → ℚ)
    (tol : ℚ) : Nat → AdaptState → AdaptState × AdaptStatus
  | 0, s =>
    if maxAbsGradient (grad s.ansatz) pool < tol then (s, .CONVERGED)
    else (s, .EXHAUSTED)
  | k + 1, s =>
    if maxAbsGradient (grad s.ansatz) pool < tol then (s, .CONVERGED)
    else
      match selectBest (grad s.ansatz) pool with
      | none => (s, .CONVERGED)
      | some g =>
        let appended := s.ansatz ++ [(g, 0)]
        let ps := optimize appended
        let reopt := appended.mapIdx (fun i gp => (gp.1, ps.getD i gp.2))
        adaptLoop pool grad optimize energy tol k
          ⟨reopt, s.energies ++ [energy reopt]⟩

/-! ## Hardware-efficient ansatz (custom-ansatz notebook) -/

/-- Gate names occurring in the HEA material. -/
inductive GateName where
  | RZ
  | RX
  | CNOT
  | PauliX
deriving DecidableEq, Repr

/-- A `tangelo.linq` gate as the HEA notebook uses it: name, target, optional
control, parameter and variational flag. -/
structure QGate where
  name : GateName
  target : Nat
  control : Option Nat
  parameter : ℚ
  is_variational : Bool
deriving DecidableEq, Repr

/-- `Circuit.add_gate` appends one gate. -/
def addGate (c : List QGate) (g : QGate) : List QGate :=
  c ++ [g]

/-- `EulerCircuit(n_qubits)`: an RZ-RX-RZ triple of variational rotations on
every qubit. -/
def EulerCircuit (n_qubits : Nat) : List QGate :=
  (List.range n_qubits).foldl
    (fun c target =>
      addGate
        (addGate (addGate c ⟨.RZ, target, none, 0, true⟩)
          ⟨.RX, target, none, 0, true⟩)
        ⟨.RZ, target, none, 0, true⟩)
    []

/-- `EntanglerCircuit(n_qubits)`: two columns of staggered non-variational
CNOT gates. -/
def EntanglerCircuit (n_qubits : Nat) : List QGate :=
  (List.range (n_qubits / 2 - 1)).foldl
    (fun c ii => addGate c ⟨.CNOT, 2 * (ii + 1), some (2 * ii + 1), 0, false⟩)
    ((List.range (n_qubits / 2)).foldl
      (fun c ii => addGate c ⟨.CNOT, 2 * ii + 1, some (2 * ii), 0, false⟩)
      [])

/-- `HEACircuit(n_qubits, n_layers)`: an Euler layer followed by `n_layers`
entangler-plus-Euler blocks. -/
def HEACircuit (n_qubits n_layers : Nat) : List QGate :=
  (List.range n_layers).foldl
    (fun c _ => (c ++ EntanglerCircuit n_qubits) ++ EulerCircuit n_qubits)
    (EulerCircuit n_qubits)

/-- `HEA.__init__`: `n_var_params = n_qubits * 3 * (n_layers + 1)`. -/
def n_var_params (n_qubits n_layers : Nat) : Nat :=
  n_qubits * 3 * (n_layers + 1)

/-- Modelled from the spec: `get_reference_circuit` of
tangelo.toolboxes.qubit_mappings.statevector_mapping is not included under
src/; per the notebook text it is a fixed reference-state preparation
prefix made of X gates on the occupied qubits, carrying no variational
gate. -/
def refCircuit (n_spinorbitals n_electrons : Nat) : List QGate :=
  ((List.range n_spinorbitals).take n_electrons).map
    (fun q => ⟨.PauliX, q, none, 0, false⟩)

/-- `HEA.build_circuit`: the HEA circuit, prefixed by the reference-state
circuit when the latter is non-empty. -/
def build_circuit (n_qubits n_layers n_spinorbitals n_electrons : Nat) : List QGate :=
  let reference_state_circuit := refCircuit n_spinorbitals n_electrons
  let hea_circuit := HEACircuit n_qubits n_layers
  if reference_state_circuit.length ≠ 0 then reference_state_circuit ++ hea_circuit
  else hea_circuit

/-- `Circuit._variational_gates`: the variational gates of a circuit, in
order. -/
def variationalGates (c : List QGate) : List QGate :=
  c.filter (fun g => g.is_variational)

/-- One assignment `circuit._variational_gates[i].parameter = var_params[i]`;
fails (Python IndexError) when the index is out of range. -/
def setParamAt (gs : List QGate) (i : Nat) (v : ℚ) : Option (List QGate) :=
  if h : i < gs.length then
    some (gs.set i { gs.get ⟨i, h⟩ with parameter := v })
  else none

/-- `HEA.update_var_params`: write `var_params[i]` into the i-th variational
gate for every `i in range(n_var_params)`. -/
def update_var_params (gs : List QGate) (nparams : Nat) (ps : Nat → ℚ) :
    Option (List QGate) :=
  (List.range nparams).foldl
    (fun acc i => acc.bind (fun l => setParamAt l i (ps i))) (some gs)

/-- Argument alternatives of `HEA.set_var_params`: `None`, the string
`"ones"`, or an explicit vector. -/
inductive VarParamsArg where
  | noArg
  | onesArg
  | vec (v : List ℚ)
deriving DecidableEq, Repr

/-- The mutable fields of the HEA object that `set_var_params` touches. -/
structure HEAState where
  nvp : Nat
  var_params : Option (List ℚ)
deriving DecidableEq, Repr

/-- `HEA.set_var_params`: `None` draws a random vector of length
`n_var_params`, `"ones"` builds an all-ones vector, any other argument is
length-checked and a mismatch raises ValueError (modelled as result `none`)
before `self.var_params` is assigned. `rand` stands for
`np.random.random`. -/
def set_var_params (rand : Nat → List ℚ) (s : HEAState) (arg : VarParamsArg) :
    HEAState × Option (List ℚ) :=
  match arg with
  | .noArg =>
    let v := rand s.nvp
    ({ s with var_params := some v }, some v)
  | .onesArg =>
    let v := List.replicate s.nvp (1 : ℚ)
    ({ s with var_params := some v }, some v)
  | .vec v =>
    if v.length ≠ s.nvp then (s, none)
    else ({ s with var_params := some v }, some v)

/-! ## Lemmas about the pauli-string array -/

theorem length_storeFactor (ps : List Nat) (ia : Nat × PauliAct) :
    (storeFactor ps ia).length = ps.length := by
  unfold storeFactor
  split <;> simp

theorem length_foldl_storeFactor (t : PTerm) (ps : List Nat) :
    (t.foldl storeFactor ps).length = ps.length := by
  induction t generalizing ps with
  | nil => rfl
  | cons ia rest ih => rw [List.foldl_cons, ih, length_storeFactor]

theorem length_buildPauliString (n : Nat) (t : PTerm) :
    (buildPauliString n t).length = n := by
  unfold buildPauliString
  rw [length_foldl_storeFactor, List.length_replicate]

theorem mem_foldl_storeFactor (t : PTerm) (ps : List Nat) (v : Nat)
    (hv : v ∈ t.foldl storeFactor ps) : v ∈ ps ∨ v = 2 ∨ v = 3 := by
  induction t generalizing ps with
  | nil => exact Or.inl hv
  | cons ia rest ih =>
    rw [List.foldl_cons] at hv
    rcases ih (storeFactor ps ia) hv with h | h
    · unfold storeFactor at h
      by_cases hc : pauli_lookup ia.2 > 1
      · rw [if_pos hc] at h
        rcases List.mem_or_eq_of_mem_set h with h' | h'
        · exact Or.inl h'
        · subst h'
          revert hc
          rcases ia.2 with _ | _ | _ <;> simp [pauli_lookup]
      · rw [if_neg hc] at h
        exact Or.inl h
    · exact Or.inr h

theorem mem_buildPauliString (n : Nat) (t : PTerm) (v : Nat)
    (hv : v ∈ buildPauliString n t) : v = 0 ∨ v = 2 ∨ v = 3 := by
  rcases mem_foldl_storeFactor t _ v hv with h | h
  · exact Or.inl (List.eq_of_mem_replicate h)
  · exact Or.inr h

theorem getD_replicate_zero (n j : Nat) :
    (List.replicate n (0 : Nat)).getD j 0 = 0 := by
  rw [List.getD_eq_getElem?_getD, List.getElem?_replicate]
  split <;> rfl

theorem getD_storeFactor_ne (ps : List Nat) (ia : Nat × PauliAct) (j : Nat)
    (hne : ia.1 ≠ j) : (storeFactor ps ia).getD j 0 = ps.getD j 0 := by
  unfold storeFactor
  split
  · rw [List.getD_eq_getElem?_getD, List.getElem?_set_ne hne,
      ← List.getD_eq_getElem?_getD]
  · rfl

theorem getD_foldl_storeFactor_of_forall (t : PTerm) (ps : List Nat) (j : Nat)
    (h : ∀ ia ∈ t, ia.1 = j → pauli_lookup ia.2 ≤ 1) :
    (t.foldl storeFactor ps).getD j 0 = ps.getD j 0 := by
  induction t generalizing ps with
  | nil => rfl
  | cons ia rest ih =>
    rw [List.foldl_cons, ih _ (fun b hb => h b (List.mem_cons_of_mem ia hb))]
    by_cases hij : ia.1 = j
    · have hz : pauli_lookup ia.2 ≤ 1 := h ia (List.mem_cons_self ia rest) hij
      unfold storeFactor
      rw [if_neg (by omega)]
    · exact getD_storeFactor_ne ps ia j hij

theorem getD_foldl_storeFactor_of_mem (t : PTerm) (ps : List Nat) (j : Nat)
    (a : PauliAct) (hnd : (t.map Prod.fst).Nodup) (hmem : (j, a) ∈ t)
    (hxy : pauli_lookup a > 1) (hj : j < ps.length) :
    (t.foldl storeFactor ps).getD j 0 = pauli_lookup a := by
  induction t generalizing ps with
  | nil => exact absurd hmem (List.not_mem_nil _)
  | cons ia rest ih =>
    rw [List.map_cons, List.nodup_cons] at hnd
    rcases List.mem_cons.mp hmem with heq | hrest
    · subst heq
      rw [List.foldl_cons]
      have hforall : ∀ ib ∈ rest, ib.1 = j → pauli_lookup ib.2 ≤ 1 := by
        intro ib hib hibj
        have hmem' : ib.1 ∈ rest.map Prod.fst := List.mem_map_of_mem Prod.fst hib
        rw [hibj] at hmem'
        exact absurd hmem' (by simpa using hnd.1)
      rw [getD_foldl_storeFactor_of_forall rest _ j hforall]
      unfold storeFactor
      rw [if_pos hxy, List.getD_eq_getElem?_getD,
        List.getElem?_set_self (by simpa using hj)]
      rfl
    · rw [List.foldl_cons]
      exact ih _ hnd.2 hrest (by rw [length_storeFactor]; exact hj)

theorem buildPauliString_getD_of_mem (n : Nat) (t : PTerm) (j : Nat)
    (a : PauliAct) (hv : ValidTerm n t) (hmem : (j, a) ∈ t)
    (hxy : pauli_lookup a > 1) :
    (buildPauliString n t).getD j 0 = pauli_lookup a :=
  getD_foldl_storeFactor_of_mem t _ j a hv.2 hmem hxy
    (by rw [List.length_replicate]; exact hv.1 (j, a) hmem)

theorem buildPauliString_getD_of_forall (n : Nat) (t : PTerm) (j : Nat)
    (h : ∀ ia ∈ t, ia.1 = j → pauli_lookup ia.2 ≤ 1) :
    (buildPauliString n t).getD j 0 = 0 := by
  unfold buildPauliString
  rw [getD_foldl_storeFactor_of_forall t _ j h, getD_replicate_zero]

theorem sum_set_of_getD_zero (ps : List Nat) (i v : Nat) (hi : i < ps.length)
    (h0 : ps.getD i 0 = 0) : (ps.set i v).sum = ps.sum + v := by
  induction ps generalizing i with
  | nil => simp at hi
  | cons a rest ih =>
    cases i with
    | zero =>
      simp only [List.getD_cons_zero] at h0
      simp [h0, Nat.add_comm]
    | succ i =>
      simp only [List.getD_cons_succ] at h0
      simp only [List.set_cons_succ, List.sum_cons,
        ih i (by simpa using hi) h0]
      omega

theorem sum_foldl_storeFactor (t : PTerm) (ps : List Nat)
    (hnd : (t.map Prod.fst).Nodup) (hlt : ∀ ia ∈ t, ia.1 < ps.length)
    (h0 : ∀ ia ∈ t, ps.getD ia.1 0 = 0) :
    (t.foldl storeFactor ps).sum = ps.sum + 2 * countX t + 3 * countY t := by
  induction t generalizing ps with
  | nil => simp [countX, countY]
  | cons ia rest ih =>
    rw [List.map_cons, List.nodup_cons] at hnd
    have hrest_ne : ∀ ib ∈ rest, ib.1 ≠ ia.1 := by
      intro ib hib heq
      have : ib.1 ∈ rest.map Prod.fst := List.mem_map_of_mem Prod.fst hib
      rw [heq] at this
      exact hnd.1 this
    obtain ⟨i, a⟩ := ia
    rw [List.foldl_cons]
    rcases a with _ | _ | _
    · have hstep : storeFactor ps (i, PauliAct.Z) = ps := by
        unfold storeFactor
        simp [pauli_lookup]
      rw [hstep, ih ps hnd.2 (fun ib hib => hlt ib (List.mem_cons_of_mem _ hib))
        (fun ib hib => h0 ib (List.mem_cons_of_mem _ hib))]
      simp [countX, countY, List.filter_cons]
    · have hstep : storeFactor ps (i, PauliAct.X) = ps.set i 2 := by
        unfold storeFactor
        simp [pauli_lookup]
      rw [hstep, ih (ps.set i 2) hnd.2
        (fun ib hib => by
          rw [List.length_set]
          exact hlt ib (List.mem_cons_of_mem _ hib))
        (fun ib hib => by
          rw [List.getD_eq_getElem?_getD,
            List.getElem?_set_ne (Ne.symm (hrest_ne ib hib
              )), ← List.getD_eq_getElem?_getD]
          exact h0 ib (List.mem_cons_of_mem _ hib)),
        sum_set_of_getD_zero ps i 2 (hlt (i, PauliAct.X) (List.mem_cons_self _ _))
          (h0 (i, PauliAct.X) (List.mem_cons_self _ _))]
      simp only [countX, countY, List.filter_cons]
      simp
      omega
    · have hstep : storeFactor ps (i, PauliAct.Y) = ps.set i 3 := by
        unfold storeFactor
        simp [pauli_lookup]
      rw [hstep, ih (ps.set i 3) hnd.2
        (fun ib hib => by
          rw [List.length_set]
          exact hlt ib (List.mem_cons_of_mem _ hib))
        (fun ib hib => by
          rw [List.getD_eq_getElem?_getD,
            List.getElem?_set_ne (Ne.symm (hrest_ne ib hib
              )), ← List.getD_eq_getElem?_getD]
          exact h0 ib (List.mem_cons_of_mem _ hib)),
        sum_set_of_getD_zero ps i 3 (hlt (i, PauliAct.Y) (List.mem_cons_self _ _))
          (h0 (i, PauliAct.Y) (List.mem_cons_self _ _))]
      simp only [countX, countY, List.filter_cons]
      simp
      omega

theorem sum_buildPauliString (n : Nat) (t : PTerm) (hv : ValidTerm n t) :
    (buildPauliString n t).sum = 2 * countX t + 3 * countY t := by
  unfold buildPauliString
  rw [sum_foldl_storeFactor t _ hv.2
    (fun ia hia => by
      rw [List.length_replicate]
      exact hv.1 ia hia)
    (fun ia _ => getD_replicate_zero n ia.1)]
  simp

theorem countX_eq_zero_iff (t : PTerm) :
    countX t = 0 ↔ ∀ ia ∈ t, ia.2 ≠ PauliAct.X := by
  unfold countX
  rw [List.length_eq_zero, List.filter_eq_nil_iff]
  simp

theorem countY_eq_zero_iff (t : PTerm) :
    countY t = 0 ↔ ∀ ia ∈ t, ia.2 ≠ PauliAct.Y := by
  unfold countY
  rw [List.length_eq_zero, List.filter_eq_nil_iff]
  simp

theorem hasXY_iff_counts_pos (t : PTerm) :
    HasXY t ↔ 0 < countX t + countY t := by
  constructor
  · rintro ⟨ia, hmem, hx | hy⟩
    · have : ia ∈ t.filter (fun ia => ia.2 = PauliAct.X) :=
        List.mem_filter.mpr ⟨hmem, by simp [hx]⟩
      have := List.length_pos.mpr (List.ne_nil_of_mem this)
      unfold countX countY
      omega
    · have : ia ∈ t.filter (fun ia => ia.2 = PauliAct.Y) :=
        List.mem_filter.mpr ⟨hmem, by simp [hy]⟩
      have := List.length_pos.mpr (List.ne_nil_of_mem this)
      unfold countX countY
      omega
  · intro hpos
    by_contra hno
    unfold HasXY at hno
    push_neg at hno
    have hx : countX t = 0 :=
      (countX_eq_zero_iff t).mpr (fun ia hia => (hno ia hia).1)
    have hy : countY t = 0 :=
      (countY_eq_zero_iff t).mpr (fun ia hia => (hno ia hia).2)
    omega

theorem sum_pos_iff_hasXY (n : Nat) (t : PTerm) (hv : ValidTerm n t) :
    0 < (buildPauliString n t).sum ↔ HasXY t := by
  rw [sum_buildPauliString n t hv, hasXY_iff_counts_pos]
  omega

theorem sum_even_iff_even_countY (n : Nat) (t : PTerm) (hv : ValidTerm n t) :
    (buildPauliString n t).sum % 2 = 0 ↔ Even (countY t) := by
  rw [sum_buildPauliString n t hv, Nat.even_iff]
  omega

/-! ## Step-reduction lemmas for the pool loop -/

theorem get_pool_step_of_mem_mask (n : Nat) (s : PoolState) (t : PTerm)
    (h : termMask n t ∈ s.indices) : get_pool_step n s t = s := by
  unfold termMask at h
  simp only [get_pool_step]
  rw [if_pos h]

theorem get_pool_step_reject (n : Nat) (s : PoolState) (t : PTerm)
    (h : ¬((buildPauliString n t).sum % 2 = 0 ∧ 0 < (buildPauliString n t).sum)) :
    get_pool_step n s t = s := by
  simp only [get_pool_step]
  by_cases hmask : actionMask (buildPauliString n t) ∈ s.indices
  · rw [if_pos hmask]
  · rw [if_neg hmask, if_neg h]

theorem get_pool_step_accept (n : Nat) (s : PoolState) (t : PTerm)
    (hmask : termMask n t ∉ s.indices)
    (hcond : (buildPauliString n t).sum % 2 = 0 ∧ 0 < (buildPauliString n t).sum) :
    get_pool_step n s t =
      { indices := s.indices ++ [termMask n t],
        pool_generators :=
          s.pool_generators ++ [(flippedTuple n t, ((0 : ℚ), (1 : ℚ)))],
        pool_tuples := s.pool_tuples ++ [flippedTuple n t] } := by
  unfold termMask at hmask ⊢
  simp only [get_pool_step]
  rw [if_neg hmask, if_pos hcond]
  rfl

theorem get_pool_step_identity_of_bad (n : Nat) (s : PoolState) (t : PTerm)
    (hv : ValidTerm n t) (hbad : ¬HasXY t ∨ ¬Even (countY t)) :
    get_pool_step n s t = s := by
  apply get_pool_step_reject
  rintro ⟨he, hp⟩
  rcases hbad with hb | hb
  · exact hb ((sum_pos_iff_hasXY n t hv).mp hp)
  · exact hb ((sum_even_iff_even_countY n t hv).mp he)

theorem foldl_get_pool_step_identity (n : Nat) (l : List PTerm) (s : PoolState)
    (h : ∀ t ∈ l, ∀ s' : PoolState, get_pool_step n s' t = s') :
    l.foldl (get_pool_step n) s = s := by
  induction l generalizing s with
  | nil => rfl
  | cons t rest ih =>
    rw [List.foldl_cons, h t (List.mem_cons_self t rest) s]
    exact ih s (fun t' ht' => h t' (List.mem_cons_of_mem t ht'))

/-! ## Claim C1 -/

/-- C1: for every qubit Hamiltonian and qubit count, a Hamiltonian term
becomes an operator-pool entry of `get_pool` only if its total count of Y
factors is even and it has at least one X or Y factor; a term with an odd
number of Y factors never produces a generator. -/
theorem c1_pool_entry_requires_even_Y_and_XY (n : Nat) (s : PoolState)
    (t : PTerm) (hv : ValidTerm n t)
    (hgrow : (get_pool_step n s t).pool_generators ≠ s.pool_generators) :
    Even (countY t) ∧ HasXY t := by
  by_contra hc
  rw [not_and_or] at hc
  exact hgrow (by
    rw [get_pool_step_identity_of_bad n s t hv hc.symm])

theorem c1_witness :
    Even (countY [(0, PauliAct.X), (1, PauliAct.X)]) ∧
      HasXY [(0, PauliAct.X), (1, PauliAct.X)] :=
  c1_pool_entry_requires_even_Y_and_XY 2 initPoolState
    [(0, PauliAct.X), (1, PauliAct.X)] (by decide) (by decide)

/-! ## Claim C4 -/

/-- C4: for every qubit Hamiltonian in which each term either has no X or Y
factor or has an odd number of Y factors, `get_pool` returns the empty
pool. -/
theorem c4_all_terms_rejected_empty_pool (h : List PTerm) (n : Nat)
    (hv : ∀ t ∈ h, ValidTerm n t)
    (hbad : ∀ t ∈ h, ¬HasXY t ∨ ¬Even (countY t)) :
    get_pool h n = [] := by
  unfold get_pool
  rw [foldl_get_pool_step_identity n h initPoolState
    (fun t ht s' => get_pool_step_identity_of_bad n s' t (hv t ht) (hbad t ht))]
  rfl

/-- Witness for C4 at the spec's own edge case: a 2-qubit Hamiltonian with a
single term spanning both qubits with an odd number of Y factors yields an
empty operator pool. -/
theorem c4_witness : get_pool [[(0, PauliAct.X), (1, PauliAct.Y)]] 2 = [] :=
  c4_all_terms_rejected_empty_pool [[(0, PauliAct.X), (1, PauliAct.Y)]] 2
    (by decide) (by decide)

/-! ## Claim C8 -/

/-- C8 counterexample: in the Hamiltonian
`[XX on 0-1, XY on 0-1, YY on 0-1]` the odd-Y term XY precedes the even-Y
term YY, both with the same X/Y support, yet YY appends no generator (the
even-Y term XX already consumed the mask): the pool has a single entry.
This falsifies the claim's universally quantified consequence. -/
theorem c8_counterexample :
    ¬ Even (countY [(0, PauliAct.X), (1, PauliAct.Y)]) ∧
    Even (countY [(0, PauliAct.Y), (1, PauliAct.Y)]) ∧
    termMask 2 [(0, PauliAct.X), (1, PauliAct.Y)] =
      termMask 2 [(0, PauliAct.Y), (1, PauliAct.Y)] ∧
    (get_pool_step 2
        ([[(0, PauliAct.X), (1, PauliAct.X)],
          [(0, PauliAct.X), (1, PauliAct.Y)]].foldl (get_pool_step 2)
          initPoolState)
        [(0, PauliAct.Y), (1, PauliAct.Y)]).pool_generators =
      ([[(0, PauliAct.X), (1, PauliAct.X)],
        [(0, PauliAct.X), (1, PauliAct.Y)]].foldl (get_pool_step 2)
        initPoolState).pool_generators ∧
    (get_pool
      [[(0, PauliAct.X), (1, PauliAct.X)],
       [(0, PauliAct.X), (1, PauliAct.Y)],
       [(0, PauliAct.Y), (1, PauliAct.Y)]] 2).length = 1 := by
  decide

/-- C8 (amended): a term with an odd number of Y factors leaves the loop
state of `get_pool` unchanged — in particular it never consumes its action
mask — so inserting or removing such a term anywhere in the Hamiltonian
leaves the pool unchanged; an odd-Y term therefore never blocks a later
even-Y term with the same X/Y support, which still produces a generator
unless some earlier generator-producing term already consumed that mask. -/
theorem c8_odd_Y_term_is_inert (n : Nat) (l1 l2 : List PTerm) (t : PTerm)
    (hv : ValidTerm n t) (hodd : ¬ Even (countY t)) :
    (∀ s : PoolState, get_pool_step n s t = s) ∧
      get_pool (l1 ++ t :: l2) n = get_pool (l1 ++ l2) n := by
  have hid : ∀ s : PoolState, get_pool_step n s t = s := fun s =>
    get_pool_step_identity_of_bad n s t hv (Or.inr hodd)
  refine ⟨hid, ?_⟩
  unfold get_pool
  rw [List.foldl_append, List.foldl_append, List.foldl_cons, hid]

/-- Witness for the amended C8: deleting the inert odd-Y term XY from
`[XX, XY, YY]` does not change the pool. -/
theorem c8_witness :
    get_pool_step 2 initPoolState [(0, PauliAct.X), (1, PauliAct.Y)] =
        initPoolState ∧
      get_pool
          [[(0, PauliAct.X), (1, PauliAct.X)],
           [(0, PauliAct.X), (1, PauliAct.Y)],
           [(0, PauliAct.Y), (1, PauliAct.Y)]] 2 =
        get_pool
          [[(0, PauliAct.X), (1, PauliAct.X)],
           [(0, PauliAct.Y), (1, PauliAct.Y)]] 2 :=
  ⟨(c8_odd_Y_term_is_inert 2 [[(0, PauliAct.X), (1, PauliAct.X)]]
      [[(0, PauliAct.Y), (1, PauliAct.Y)]] [(0, PauliAct.X), (1, PauliAct.Y)]
      (by decide) (by decide)).1 initPoolState,
    (c8_odd_Y_term_is_inert 2 [[(0, PauliAct.X), (1, PauliAct.X)]]
      [[(0, PauliAct.Y), (1, PauliAct.Y)]] [(0, PauliAct.X), (1, PauliAct.Y)]
      (by decide) (by decide)).2⟩

/-! ## Lemmas for the generator shape (C2) -/

theorem getD_set_self (l : List Nat) (i w : Nat) (h : i < l.length) :
    (l.set i w).getD i 0 = w := by
  rw [List.getD_eq_getElem?_getD, List.getElem?_set_self h]
  rfl

theorem getD_set_ne (l : List Nat) (i j w : Nat) (h : i ≠ j) :
    (l.set i w).getD j 0 = l.getD j 0 := by
  rw [List.getD_eq_getElem?_getD, List.getElem?_set_ne h,
    ← List.getD_eq_getElem?_getD]

theorem mem_operatorTuple (l : List Nat) (j : Nat) (p : P4) :
    (j, p) ∈ operatorTuple l ↔
      ∃ v, l[j]? = some v ∧ 0 < v ∧ p = pauli_reverse_lookup v := by
  unfold operatorTuple
  constructor
  · intro h
    rw [List.mem_map] at h
    obtain ⟨q, hq, hfq⟩ := h
    rw [List.mem_filter] at hq
    obtain ⟨hqe, hqv⟩ := hq
    obtain ⟨j', v⟩ := q
    rw [Prod.mk.injEq] at hfq
    refine ⟨v, ?_, ?_, hfq.2.symm⟩
    · rw [← hfq.1]
      exact List.mk_mem_enum_iff_getElem?.mp hqe
    · simpa using hqv
  · rintro ⟨v, hv, hpos, hp⟩
    rw [List.mem_map]
    refine ⟨(j, v), List.mem_filter.mpr
      ⟨List.mk_mem_enum_iff_getElem?.mpr hv, by simpa using hpos⟩, ?_⟩
    rw [hp]

theorem term_action_unique (t : PTerm) (hnd : (t.map Prod.fst).Nodup)
    (j : Nat) (a b : PauliAct) (ha : (j, a) ∈ t) (hb : (j, b) ∈ t) : a = b := by
  have := List.inj_on_of_nodup_map hnd ha hb rfl
  exact congrArg Prod.snd this

theorem lookup_gt_one_of_XY (a : PauliAct)
    (h : a = PauliAct.X ∨ a = PauliAct.Y) : pauli_lookup a > 1 := by
  rcases h with h | h <;> subst h <;> decide

theorem rev_flipVal_lookup (a : PauliAct)
    (h : a = PauliAct.X ∨ a = PauliAct.Y) :
    pauli_reverse_lookup (flipVal (pauli_lookup a)) = flipP4 a := by
  rcases h with h | h <;> subst h <;> decide

theorem rev_lookup (a : PauliAct) (h : a = PauliAct.X ∨ a = PauliAct.Y) :
    pauli_reverse_lookup (pauli_lookup a) = toP4 a := by
  rcases h with h | h <;> subst h <;> decide

theorem flipVal_lookup_pos (a : PauliAct)
    (h : a = PauliAct.X ∨ a = PauliAct.Y) : 0 < flipVal (pauli_lookup a) := by
  rcases h with h | h <;> subst h <;> decide

theorem length_flippedString (n : Nat) (t : PTerm) :
    (flippedString n t).length = n := by
  unfold flippedString
  rw [List.length_set, length_buildPauliString]

theorem flip_index_eq_of_least (n : Nat) (t : PTerm) (j0 : Nat) (hj0 : j0 < n)
    (hval : 1 < (buildPauliString n t).getD j0 0)
    (hmin : ∀ i, i < j0 → ¬(1 < (buildPauliString n t).getD i 0)) :
    flip_index n t = j0 := by
  unfold flip_index
  have hlen : j0 < (buildPauliString n t).length := by
    rw [length_buildPauliString]
    exact hj0
  rw [List.findIdx_eq hlen]
  constructor
  · rw [← List.getD_eq_getElem _ 0 hlen]
    simpa using hval
  · intro j hj
    have hjlen : j < (buildPauliString n t).length := Nat.lt_trans hj hlen
    rw [← List.getD_eq_getElem _ 0 hjlen]
    simpa using hmin j hj

/-! ## Claim C2 -/

/-- C2: for every accepted term (even Y count, at least one X/Y, fresh
action mask), the appended generator is the term with all Z factors
discarded and exactly its first X/Y factor — the one on the lowest-indexed
qubit carrying an X or Y — flipped X to Y or Y to X, instantiated with the
purely imaginary coefficient 1.0j. -/
theorem c2_generator_is_flipped_XY_part (n : Nat) (s : PoolState) (t : PTerm)
    (j0 : Nat) (hv : ValidTerm n t) (hmask : termMask n t ∉ s.indices)
    (heven : Even (countY t)) (hxy : HasXY t)
    (hj0 : ∃ a, (j0, a) ∈ t ∧ (a = PauliAct.X ∨ a = PauliAct.Y))
    (hmin : ∀ i, i < j0 → ∀ a, (i, a) ∈ t → a = PauliAct.Z) :
    (get_pool_step n s t).pool_generators =
      s.pool_generators ++ [(flippedTuple n t, ((0 : ℚ), (1 : ℚ)))] ∧
    ∀ j p, ((j, p) ∈ flippedTuple n t ↔
      ∃ a, (j, a) ∈ t ∧ (a = PauliAct.X ∨ a = PauliAct.Y) ∧
        p = (if j = j0 then flipP4 a else toP4 a)) := by
  have hcond : (buildPauliString n t).sum % 2 = 0 ∧
      0 < (buildPauliString n t).sum :=
    ⟨(sum_even_iff_even_countY n t hv).mpr heven,
      (sum_pos_iff_hasXY n t hv).mpr hxy⟩
  obtain ⟨a0, ha0, ha0xy⟩ := hj0
  have hlk0 : 1 < pauli_lookup a0 := lookup_gt_one_of_XY a0 ha0xy
  have hj0n : j0 < n := hv.1 (j0, a0) ha0
  have hval0 : (buildPauliString n t).getD j0 0 = pauli_lookup a0 :=
    buildPauliString_getD_of_mem n t j0 a0 hv ha0 hlk0
  have hminv : ∀ i, i < j0 → ¬(1 < (buildPauliString n t).getD i 0) := by
    intro i hi
    have hz : ∀ ia ∈ t, ia.1 = i → pauli_lookup ia.2 ≤ 1 := by
      intro ia hia hiai
      obtain ⟨i', b⟩ := ia
      have hieq : i' = i := hiai
      subst hieq
      have hb : b = PauliAct.Z := hmin i' hi b hia
      rw [hb]
      exact Nat.le_refl 1
    rw [buildPauliString_getD_of_forall n t i hz]
    omega
  have hflip : flip_index n t = j0 :=
    flip_index_eq_of_least n t j0 hj0n (by rw [hval0]; exact hlk0) hminv
  constructor
  · rw [get_pool_step_accept n s t hmask hcond]
  · intro j p
    rw [flippedTuple, mem_operatorTuple]
    by_cases hjn : j < n
    · have hjlen : j < (flippedString n t).length := by
        rw [length_flippedString]
        exact hjn
      have hsome : (flippedString n t)[j]? =
          some ((flippedString n t).getD j 0) := by
        rw [List.getElem?_eq_getElem hjlen, List.getD_eq_getElem _ 0 hjlen]
      rw [hsome]
      by_cases hjj0 : j = j0
      · subst hjj0
        have hfs : (flippedString n t).getD j 0 =
            flipVal (pauli_lookup a0) := by
          unfold flippedString
          rw [hflip, hval0,
            getD_set_self _ _ _ (by rw [length_buildPauliString]; exact hj0n)]
        rw [hfs]
        constructor
        · rintro ⟨v, hv', hpos, hp⟩
          injection hv' with hveq
          subst hveq
          exact ⟨a0, ha0, ha0xy, by
            rw [hp, if_pos rfl, rev_flipVal_lookup a0 ha0xy]⟩
        · rintro ⟨a, ham, haxy, hp⟩
          have haa0 : a = a0 := term_action_unique t hv.2 j a a0 ham ha0
          subst haa0
          exact ⟨flipVal (pauli_lookup a), rfl, flipVal_lookup_pos a haxy, by
            rw [hp, if_pos rfl, rev_flipVal_lookup a haxy]⟩
      · have hfs : (flippedString n t).getD j 0 =
            (buildPauliString n t).getD j 0 := by
          unfold flippedString
          exact getD_set_ne _ _ _ _ (by
            rw [hflip]
            exact fun heq => hjj0 heq.symm)
        by_cases hex : ∃ a, (j, a) ∈ t ∧ (a = PauliAct.X ∨ a = PauliAct.Y)
        · obtain ⟨a, ham, haxy⟩ := hex
          have hlk : 1 < pauli_lookup a := lookup_gt_one_of_XY a haxy
          have hvj : (buildPauliString n t).getD j 0 = pauli_lookup a :=
            buildPauliString_getD_of_mem n t j a hv ham hlk
          rw [hfs, hvj]
          constructor
          · rintro ⟨v, hv', hpos, hp⟩
            injection hv' with hveq
            subst hveq
            exact ⟨a, ham, haxy, by rw [hp, if_neg hjj0, rev_lookup a haxy]⟩
          · rintro ⟨b, hbm, hbxy, hp⟩
            have hba : b = a := term_action_unique t hv.2 j b a hbm ham
            subst hba
            exact ⟨pauli_lookup b, rfl, by omega, by
              rw [hp, if_neg hjj0, rev_lookup b hbxy]⟩
        · have hz : ∀ ia ∈ t, ia.1 = j → pauli_lookup ia.2 ≤ 1 := by
            intro ia hia hiaj
            obtain ⟨j', b⟩ := ia
            have hjeq : j' = j := hiaj
            subst hjeq
            rcases b with _ | _ | _
            · exact Nat.le_refl 1
            · exact absurd ⟨PauliAct.X, hia, Or.inl rfl⟩ hex
            · exact absurd ⟨PauliAct.Y, hia, Or.inr rfl⟩ hex
          have hvj : (buildPauliString n t).getD j 0 = 0 :=
            buildPauliString_getD_of_forall n t j hz
          rw [hfs, hvj]
          constructor
          · rintro ⟨v, hv', hpos, _⟩
            injection hv' with hveq
            omega
          · rintro ⟨a, ham, haxy, _⟩
            exact absurd ⟨a, ham, haxy⟩ hex
    · have hnone : (flippedString n t)[j]? = none := by
        rw [List.getElem?_eq_none]
        rw [length_flippedString]
        omega
      rw [hnone]
      constructor
      · rintro ⟨v, hv', _, _⟩
        exact absurd hv' (by simp)
      · rintro ⟨a, ham, _, _⟩
        exact absurd (hv.1 (j, a) ham) hjn

/-- Witness for C2: the XX term on qubits 0 and 1 produces the generator
YX with coefficient 1j (the notebook's own worked example restricted to the
first two factors). -/
theorem c2_witness :
    (get_pool_step 2 initPoolState
        [(0, PauliAct.X), (1, PauliAct.X)]).pool_generators =
      initPoolState.pool_generators ++
        [(flippedTuple 2 [(0, PauliAct.X), (1, PauliAct.X)],
          ((0 : ℚ), (1 : ℚ)))] ∧
    ((0, P4.Y) ∈ flippedTuple 2 [(0, PauliAct.X), (1, PauliAct.X)] ↔
      ∃ a, (0, a) ∈ [(0, PauliAct.X), (1, PauliAct.X)] ∧
        (a = PauliAct.X ∨ a = PauliAct.Y) ∧
        P4.Y = (if (0 : Nat) = 0 then flipP4 a else toP4 a)) :=
  ⟨(c2_generator_is_flipped_XY_part 2 initPoolState
      [(0, PauliAct.X), (1, PauliAct.X)] 0 (by decide) (by decide) (by decide)
      (by decide) ⟨PauliAct.X, by decide, Or.inl rfl⟩
      (fun i hi => absurd hi (Nat.not_lt_zero i))).1,
    (c2_generator_is_flipped_XY_part 2 initPoolState
      [(0, PauliAct.X), (1, PauliAct.X)] 0 (by decide) (by decide) (by decide)
      (by decide) ⟨PauliAct.X, by decide, Or.inl rfl⟩
      (fun i hi => absurd hi (Nat.not_lt_zero i))).2 0 P4.Y⟩

/-! ## Lemmas for the support masks (C3) -/

theorem exists_gt_one_of_sum_pos (ps : List Nat)
    (hvals : ∀ v ∈ ps, v = 0 ∨ v = 2 ∨ v = 3) (hsum : 0 < ps.sum) :
    ∃ v ∈ ps, 1 < v := by
  by_contra hc
  push_neg at hc
  have hz : ∀ v ∈ ps, v = 0 := by
    intro v hv
    rcases hvals v hv with h | h | h
    · exact h
    · exact absurd (h ▸ hc v hv) (by omega)
    · exact absurd (h ▸ hc v hv) (by omega)
  rw [List.sum_eq_zero hz] at hsum
  omega

theorem flip_index_lt (n : Nat) (t : PTerm)
    (hsum : 0 < (buildPauliString n t).sum) :
    flip_index n t < n := by
  obtain ⟨v, hv, hv1⟩ := exists_gt_one_of_sum_pos (buildPauliString n t)
    (mem_buildPauliString n t) hsum
  have hlt := @List.findIdx_lt_length_of_exists _ (fun v => decide (v > 1))
    (buildPauliString n t) ⟨v, hv, by simpa using hv1⟩
  unfold flip_index
  rwa [length_buildPauliString] at hlt

theorem getD_flip_index_gt_one (n : Nat) (t : PTerm)
    (hsum : 0 < (buildPauliString n t).sum) :
    1 < (buildPauliString n t).getD (flip_index n t) 0 := by
  have hlt : flip_index n t < (buildPauliString n t).length := by
    rw [length_buildPauliString]
    exact flip_index_lt n t hsum
  rw [List.getD_eq_getElem _ 0 hlt]
  have := @List.findIdx_getElem _ (fun v => decide (v > 1))
    (buildPauliString n t) hlt
  simpa using this

theorem getD_mem_of_lt (ps : List Nat) (i : Nat) (h : i < ps.length) :
    ps.getD i 0 ∈ ps := by
  rw [List.getD_eq_getElem _ 0 h]
  exact List.getElem_mem h

theorem genSupport_flippedTuple (n : Nat) (t : PTerm) (c : Cplx)
    (hsum : 0 < (buildPauliString n t).sum) :
    genSupport n (flippedTuple n t, c) = termMask n t := by
  have hlen_ps : (buildPauliString n t).length = n := length_buildPauliString n t
  apply List.ext_getElem
  · unfold genSupport termMask actionMask
    simp [hlen_ps]
  · intro i h1 h2
    have hin : i < n := by
      unfold genSupport at h1
      simpa using h1
    unfold genSupport termMask actionMask
    rw [List.getElem_map, List.getElem_map, List.getElem_range]
    have hips : i < (buildPauliString n t).length := by
      rw [hlen_ps]
      exact hin
    rw [← List.getD_eq_getElem _ 0 hips]
    have hmem_iff : (flippedTuple n t, c).1.any (fun jp => decide (jp.1 = i)) =
        true ↔ ∃ v, (flippedString n t)[i]? = some v ∧ 0 < v := by
      rw [List.any_eq_true]
      constructor
      · rintro ⟨jp, hjp, hdec⟩
        obtain ⟨j', p'⟩ := jp
        have hj' : j' = i := by simpa using hdec
        rw [hj'] at hjp
        obtain ⟨v, hv, hvpos, _⟩ :=
          (mem_operatorTuple (flippedString n t) i p').mp hjp
        exact ⟨v, hv, hvpos⟩
      · rintro ⟨v, hv, hvpos⟩
        refine ⟨(i, pauli_reverse_lookup v), ?_, by simp⟩
        exact (mem_operatorTuple (flippedString n t) i
          (pauli_reverse_lookup v)).mpr ⟨v, hv, hvpos, rfl⟩
    have hfs_len : i < (flippedString n t).length := by
      rw [length_flippedString]
      exact hin
    have hfs_some : (flippedString n t)[i]? =
        some ((flippedString n t).getD i 0) := by
      rw [List.getElem?_eq_getElem hfs_len, List.getD_eq_getElem _ 0 hfs_len]
    have hpos_iff : (0 < (flippedString n t).getD i 0) ↔
        (1 < (buildPauliString n t).getD i 0) := by
      by_cases hifi : i = flip_index n t
      · have h1gt : 1 < (buildPauliString n t).getD i 0 := by
          rw [hifi]
          exact getD_flip_index_gt_one n t hsum
        have hfv : (flippedString n t).getD i 0 =
            flipVal ((buildPauliString n t).getD i 0) := by
          unfold flippedString
          rw [hifi]
          exact getD_set_self _ _ _ (by rw [← hifi]; exact hips)
        rw [hfv]
        unfold flipVal
        constructor
        · intro _
          exact h1gt
        · intro _
          split <;> omega
      · have hfv : (flippedString n t).getD i 0 =
            (buildPauliString n t).getD i 0 := by
          unfold flippedString
          exact getD_set_ne _ _ _ _ (fun heq => hifi heq.symm)
        rw [hfv]
        rcases mem_buildPauliString n t _ (getD_mem_of_lt _ i hips) with
          h | h | h <;> rw [h] <;> omega
    rw [Bool.eq_iff_iff, hmem_iff]
    simp only [decide_eq_true_eq]
    rw [hfs_some]
    constructor
    · rintro ⟨v, hveq, hvpos⟩
      injection hveq with hveq
      exact hpos_iff.mp (hveq ▸ hvpos)
    · intro hgt
      exact ⟨(flippedString n t).getD i 0, rfl, hpos_iff.mpr hgt⟩

theorem pool_invariant_step (n : Nat) (M : List (List Bool)) (s : PoolState)
    (t : PTerm)
    (hnd : (s.pool_generators.map (genSupport n)).Nodup)
    (hsub : ∀ m ∈ s.pool_generators.map (genSupport n), m ∈ s.indices)
    (hidx : ∀ m ∈ s.indices, m ∈ M) (htm : termMask n t ∈ M) :
    ((get_pool_step n s t).pool_generators.map (genSupport n)).Nodup ∧
    (∀ m ∈ (get_pool_step n s t).pool_generators.map (genSupport n),
      m ∈ (get_pool_step n s t).indices) ∧
    (∀ m ∈ (get_pool_step n s t).indices, m ∈ M) := by
  by_cases hmask : termMask n t ∈ s.indices
  · rw [get_pool_step_of_mem_mask n s t hmask]
    exact ⟨hnd, hsub, hidx⟩
  · by_cases hcond : (buildPauliString n t).sum % 2 = 0 ∧
        0 < (buildPauliString n t).sum
    · rw [get_pool_step_accept n s t hmask hcond]
      have hgen : genSupport n (flippedTuple n t, ((0 : ℚ), (1 : ℚ))) =
          termMask n t :=
        genSupport_flippedTuple n t _ hcond.2
      constructor
      · rw [List.map_append]
        simp only [List.map_cons, List.map_nil, hgen]
        rw [List.nodup_append]
        refine ⟨hnd, List.nodup_singleton _, ?_⟩
        intro m hm hm'
        rw [List.mem_singleton] at hm'
        exact hmask (hm' ▸ hsub m hm)
      constructor
      · intro m hm
        rw [List.map_append] at hm
        rcases List.mem_append.mp hm with hm | hm
        · exact List.mem_append_left _ (hsub m hm)
        · simp only [List.map_cons, List.map_nil, hgen,
            List.mem_singleton] at hm
          exact List.mem_append_right _ (by rw [hm]; exact List.mem_singleton_self _)
      · intro m hm
        rcases List.mem_append.mp hm with hm | hm
        · exact hidx m hm
        · rw [List.mem_singleton] at hm
          exact hm ▸ htm
    · rw [get_pool_step_reject n s t hcond]
      exact ⟨hnd, hsub, hidx⟩

theorem pool_invariant_foldl (n : Nat) (l : List PTerm)
    (M : List (List Bool)) (s : PoolState)
    (hnd : (s.pool_generators.map (genSupport n)).Nodup)
    (hsub : ∀ m ∈ s.pool_generators.map (genSupport n), m ∈ s.indices)
    (hidx : ∀ m ∈ s.indices, m ∈ M)
    (hl : ∀ t ∈ l, termMask n t ∈ M) :
    (((l.foldl (get_pool_step n) s).pool_generators.map
        (genSupport n)).Nodup) ∧
    (∀ m ∈ (l.foldl (get_pool_step n) s).pool_generators.map (genSupport n),
      m ∈ M) := by
  induction l generalizing s with
  | nil => exact ⟨hnd, fun m hm => hidx m (hsub m hm)⟩
  | cons t rest ih =>
    rw [List.foldl_cons]
    obtain ⟨hnd', hsub', hidx'⟩ :=
      pool_invariant_step n M s t hnd hsub hidx
        (hl t (List.mem_cons_self t rest))
    exact ih (get_pool_step n s t) hnd' hsub' hidx'
      (fun t' ht' => hl t' (List.mem_cons_of_mem t ht'))

/-! ## Claim C3 -/

/-- C3: any two generators in the pool returned by `get_pool` act on
distinct sets of qubits (their X/Y action masks are pairwise distinct), each
generator's mask is the action mask of some Hamiltonian term, and hence the
pool size is bounded by the number of distinct qubit-support patterns among
the Hamiltonian's terms. -/
theorem c3_pairwise_distinct_supports (h : List PTerm) (n : Nat) :
    ((get_pool h n).map (genSupport n)).Nodup ∧
    (∀ m ∈ (get_pool h n).map (genSupport n), m ∈ h.map (termMask n)) ∧
    (get_pool h n).length ≤ (h.map (termMask n)).dedup.length := by
  obtain ⟨hnd, hsub⟩ := pool_invariant_foldl n h (h.map (termMask n))
    initPoolState (by simp [initPoolState]) (by simp [initPoolState])
    (by simp [initPoolState]) (fun t ht => List.mem_map_of_mem _ ht)
  unfold get_pool
  refine ⟨hnd, hsub, ?_⟩
  set L := ((h.foldl (get_pool_step n) initPoolState).pool_generators.map
    (genSupport n)) with hL
  have hlen : (h.foldl (get_pool_step n) initPoolState).pool_generators.length
      = L.length := by
    rw [hL, List.length_map]
  rw [hlen, ← List.toFinset_card_of_nodup hnd,
    ← List.card_toFinset (h.map (termMask n))]
  apply Finset.card_le_card
  intro x hx
  rw [List.mem_toFinset] at hx ⊢
  exact hsub x hx

/-! ## Claim C5 -/

/-- C5: `get_pool` is deterministic and pure — for every pair of qubit
Hamiltonians with the same ordered term keys (in particular for the same
Hamiltonian presented twice, whatever its coefficients), the calls return
the same ordered list of generators; the embedding is a pure function of
the term order, so the input mapping is not modified. -/
theorem c5_get_pool_deterministic (H1 H2 : QubitHam) (n : Nat)
    (hkeys : H1.map Prod.fst = H2.map Prod.fst) :
    get_poolH H1 n = get_poolH H2 n ∧ get_poolH H1 n = get_poolH H1 n := by
  unfold get_poolH
  rw [hkeys]
  exact ⟨rfl, rfl⟩

/-- Witness for C5: two Hamiltonians with the same single XX term but
different coefficients produce the same ordered pool. -/
theorem c5_witness :
    get_poolH [([(0, PauliAct.X), (1, PauliAct.X)], ((1 : ℚ), (0 : ℚ)))] 2 =
      get_poolH [([(0, PauliAct.X), (1, PauliAct.X)], ((2 : ℚ), (0 : ℚ)))] 2 ∧
    get_poolH [([(0, PauliAct.X), (1, PauliAct.X)], ((1 : ℚ), (0 : ℚ)))] 2 =
      get_poolH [([(0, PauliAct.X), (1, PauliAct.X)], ((1 : ℚ), (0 : ℚ)))] 2 :=
  c5_get_pool_deterministic
    [([(0, PauliAct.X), (1, PauliAct.X)], ((1 : ℚ), (0 : ℚ)))]
    [([(0, PauliAct.X), (1, PauliAct.X)], ((2 : ℚ), (0 : ℚ)))] 2 rfl

/-! ## Lemmas for Hamiltonian addition (C6) -/

theorem cadd_zero_left (a : Cplx) : cadd ((0 : ℚ), (0 : ℚ)) a = a := by
  unfold cadd
  simp

theorem cadd_zero_right (a : Cplx) : cadd a ((0 : ℚ), (0 : ℚ)) = a := by
  unfold cadd
  simp

theorem any_key_iff (h : QubitHam) (t : PTerm) :
    h.any (fun p => decide (p.1 = t)) = true ↔ t ∈ h.map Prod.fst := by
  rw [List.any_eq_true]
  constructor
  · rintro ⟨p, hp, hdec⟩
    rw [decide_eq_true_eq] at hdec
    exact hdec ▸ List.mem_map_of_mem Prod.fst hp
  · intro hmem
    obtain ⟨p, hp, hfst⟩ := List.mem_map.mp hmem
    exact ⟨p, hp, by rw [decide_eq_true_eq]; exact hfst⟩

theorem keys_dictAddTerm (h : QubitHam) (t : PTerm) (c : Cplx) :
    (dictAddTerm h t c).map Prod.fst =
      if t ∈ h.map Prod.fst then h.map Prod.fst
      else h.map Prod.fst ++ [t] := by
  unfold dictAddTerm
  by_cases hmem : t ∈ h.map Prod.fst
  · rw [if_pos ((any_key_iff h t).mpr hmem), if_pos hmem, List.map_map]
    apply List.map_congr_left
    intro p _
    simp only [Function.comp_apply]
    split <;> rfl
  · rw [if_neg (fun hc => hmem ((any_key_iff h t).mp hc)), if_neg hmem,
      List.map_append]
    rfl

theorem keys_nodup_dictAddTerm (h : QubitHam) (t : PTerm) (c : Cplx)
    (hnd : (h.map Prod.fst).Nodup) :
    ((dictAddTerm h t c).map Prod.fst).Nodup := by
  rw [keys_dictAddTerm]
  by_cases hmem : t ∈ h.map Prod.fst
  · rwa [if_pos hmem]
  · rw [if_neg hmem, List.nodup_append]
    exact ⟨hnd, List.nodup_singleton t, by
      intro m hm hm'
      rw [List.mem_singleton] at hm'
      exact hmem (hm' ▸ hm)⟩

theorem coeffOf_eq_zero_of_not_mem (h : QubitHam) (t : PTerm)
    (hmem : t ∉ h.map Prod.fst) : coeffOf h t = ((0 : ℚ), (0 : ℚ)) := by
  unfold coeffOf
  cases hfind : h.find? (fun p => decide (p.1 = t)) with
  | none => rfl
  | some p =>
    have hp1 : p.1 = t := by
      have := List.find?_some hfind
      rwa [decide_eq_true_eq] at this
    have hpm : p ∈ h := List.mem_of_find?_eq_some hfind
    exact absurd (hp1 ▸ List.mem_map_of_mem Prod.fst hpm) hmem

theorem coeffOf_eq_of_find?_some (h : QubitHam) (t : PTerm) (p : PTerm × Cplx)
    (hf : h.find? (fun p => decide (p.1 = t)) = some p) : coeffOf h t = p.2 := by
  unfold coeffOf
  rw [hf]

theorem coeffOf_eq_of_find?_none (h : QubitHam) (t : PTerm)
    (hf : h.find? (fun p => decide (p.1 = t)) = none) :
    coeffOf h t = ((0 : ℚ), (0 : ℚ)) := by
  unfold coeffOf
  rw [hf]

theorem coeffOf_dictAddTerm (h : QubitHam) (t t' : PTerm) (c : Cplx) :
    coeffOf (dictAddTerm h t c) t' =
      if t' = t then cadd (coeffOf h t) c else coeffOf h t' := by
  unfold dictAddTerm
  by_cases hmem : t ∈ h.map Prod.fst
  · rw [if_pos ((any_key_iff h t).mpr hmem)]
    have hpred : ((fun p : PTerm × Cplx => decide (p.1 = t')) ∘
        (fun p => if p.1 = t then (p.1, cadd p.2 c) else p)) =
        (fun p : PTerm × Cplx => decide (p.1 = t')) := by
      funext p
      simp only [Function.comp_apply]
      by_cases hc : p.1 = t <;> simp [hc]
    cases hfind : h.find? (fun p => decide (p.1 = t')) with
    | some p =>
      have hp1 : p.1 = t' := by
        have := List.find?_some hfind
        rwa [decide_eq_true_eq] at this
      have hfmap : (h.map (fun p => if p.1 = t then (p.1, cadd p.2 c)
          else p)).find? (fun p => decide (p.1 = t')) =
          some (if p.1 = t then (p.1, cadd p.2 c) else p) := by
        rw [List.find?_map, hpred, hfind]
        rfl
      rw [coeffOf_eq_of_find?_some _ _ _ hfmap]
      by_cases ht : t' = t
      · rw [if_pos ht]
        have hpt : p.1 = t := hp1.trans ht
        rw [if_pos hpt]
        rw [coeffOf_eq_of_find?_some h t p (by rw [← ht]; exact hfind)]
      · rw [if_neg ht]
        have hpt : ¬(p.1 = t) := fun hc => ht (hp1 ▸ hc)
        rw [if_neg hpt, coeffOf_eq_of_find?_some h t' p hfind]
    | none =>
      have hfmap : (h.map (fun p => if p.1 = t then (p.1, cadd p.2 c)
          else p)).find? (fun p => decide (p.1 = t')) = none := by
        rw [List.find?_map, hpred, hfind]
        rfl
      rw [coeffOf_eq_of_find?_none _ _ hfmap]
      by_cases ht : t' = t
      · exfalso
        subst ht
        obtain ⟨p, hp, hfst'⟩ := List.mem_map.mp hmem
        have hs : (h.find? (fun p => decide (p.1 = t'))).isSome :=
          List.find?_isSome.mpr ⟨p, hp, by rw [decide_eq_true_eq]; exact hfst'⟩
        rw [hfind] at hs
        exact absurd hs (by simp)
      · rw [if_neg ht, coeffOf_eq_of_find?_none h t' hfind]
  · rw [if_neg (fun hc => hmem ((any_key_iff h t).mp hc))]
    by_cases ht : t' = t
    · subst ht
      have hnone : h.find? (fun p => decide (p.1 = t')) = none := by
        cases hfind : h.find? (fun p => decide (p.1 = t')) with
        | none => rfl
        | some p =>
          have hp1 : p.1 = t' := by
            have := List.find?_some hfind
            rwa [decide_eq_true_eq] at this
          exact absurd (hp1 ▸ List.mem_map_of_mem Prod.fst
            (List.mem_of_find?_eq_some hfind)) hmem
      have happ : (h ++ [(t', c)]).find? (fun p => decide (p.1 = t')) =
          some (t', c) := by
        rw [List.find?_append, hnone, Option.none_or,
          List.find?_cons_of_pos _ (by rw [decide_eq_true_eq])]
      rw [coeffOf_eq_of_find?_some _ _ _ happ, if_pos rfl,
        coeffOf_eq_zero_of_not_mem h t' hmem, cadd_zero_left]
    · have hsingle : List.find? (fun p : PTerm × Cplx => decide (p.1 = t'))
          [(t, c)] = none := by
        rw [List.find?_cons_of_neg _ (by
          rw [decide_eq_true_eq]
          exact fun hc => ht hc.symm)]
        rfl
      have happ : (h ++ [(t, c)]).find? (fun p => decide (p.1 = t')) =
          h.find? (fun p => decide (p.1 = t')) := by
        rw [List.find?_append, hsingle, Option.or_none]
      rw [if_neg ht]
      cases hfind : h.find? (fun p => decide (p.1 = t')) with
      | some p =>
        rw [coeffOf_eq_of_find?_some _ _ p (by rw [happ]; exact hfind),
          coeffOf_eq_of_find?_some h t' p hfind]
      | none =>
        rw [coeffOf_eq_of_find?_none _ _ (by rw [happ]; exact hfind),
          coeffOf_eq_of_find?_none h t' hfind]

theorem keys_nodup_hamAdd (a b : QubitHam) (hna : (a.map Prod.fst).Nodup) :
    ((hamAdd a b).map Prod.fst).Nodup := by
  induction b generalizing a with
  | nil => exact hna
  | cons tc rest ih =>
    unfold hamAdd
    rw [List.foldl_cons]
    exact ih (dictAddTerm a tc.1 tc.2) (keys_nodup_dictAddTerm a tc.1 tc.2 hna)

theorem coeffOf_hamAdd (a b : QubitHam) (hna : (a.map Prod.fst).Nodup)
    (hnb : (b.map Prod.fst).Nodup) (t : PTerm) :
    coeffOf (hamAdd a b) t = cadd (coeffOf a t) (coeffOf b t) := by
  induction b generalizing a with
  | nil =>
    have h0 : coeffOf ([] : QubitHam) t = ((0 : ℚ), (0 : ℚ)) := rfl
    unfold hamAdd
    rw [List.foldl_nil, h0, cadd_zero_right]
  | cons tc rest ih =>
    unfold hamAdd
    rw [List.foldl_cons]
    rw [List.map_cons, List.nodup_cons] at hnb
    have hstep := ih (dictAddTerm a tc.1 tc.2)
      (keys_nodup_dictAddTerm a tc.1 tc.2 hna) hnb.2
    unfold hamAdd at hstep
    rw [hstep, coeffOf_dictAddTerm a tc.1 t tc.2]
    by_cases ht : t = tc.1
    · rw [if_pos ht]
      have hrest : coeffOf rest t = ((0 : ℚ), (0 : ℚ)) :=
        coeffOf_eq_zero_of_not_mem rest t (fun hc => hnb.1 (ht ▸ hc))
      have hcons : coeffOf (tc :: rest) t = tc.2 := by
        apply coeffOf_eq_of_find?_some
        rw [List.find?_cons_of_pos _ (by
          rw [decide_eq_true_eq]
          exact ht.symm)]
      rw [hrest, hcons, cadd_zero_right, ht]
    · rw [if_neg ht]
      have hcons : coeffOf (tc :: rest) t = coeffOf rest t := by
        unfold coeffOf
        rw [List.find?_cons_of_neg _ (by
          rw [decide_eq_true_eq]
          exact fun hc => ht hc.symm)]
      rw [hcons]

/-! ## Claim C6 -/

/-- C6: with penalty terms requested, the working Hamiltonian used for both
operator-pool construction and optimization equals the original qubit
Hamiltonian plus the penalty operator, built once before the loop —
term-wise, every coefficient of the working Hamiltonian is the sum of the
original and penalty coefficients — while the original unpenalized
Hamiltonian is retained unchanged and is the one used to report the true
physical energy at the end of the run. -/
theorem c6_penalized_run_composition (orig pen : QubitHam)
    (h1 : (orig.map Prod.fst).Nodup) (h2 : (pen.map Prod.fst).Nodup) :
    (penaltySetup orig pen).workingHam = hamAdd orig pen ∧
    (penaltySetup orig pen).poolArgsHam = (penaltySetup orig pen).workingHam ∧
    (penaltySetup orig pen).reportedHam = orig ∧
    ∀ t, coeffOf (penaltySetup orig pen).workingHam t =
      cadd (coeffOf orig t) (coeffOf pen t) :=
  ⟨rfl, rfl, rfl, fun t => coeffOf_hamAdd orig pen h1 h2 t⟩

/-- Witness for C6: a one-term original Hamiltonian X0 with coefficient 1
and a penalty Hamiltonian with X0 at weight 1/2 and Z0 at 2. -/
theorem c6_witness :
    (penaltySetup [([(0, PauliAct.X)], ((1 : ℚ), (0 : ℚ)))]
        [([(0, PauliAct.X)], ((1 / 2 : ℚ), (0 : ℚ))),
         ([(0, PauliAct.Z)], ((2 : ℚ), (0 : ℚ)))]).workingHam =
      hamAdd [([(0, PauliAct.X)], ((1 : ℚ), (0 : ℚ)))]
        [([(0, PauliAct.X)], ((1 / 2 : ℚ), (0 : ℚ))),
         ([(0, PauliAct.Z)], ((2 : ℚ), (0 : ℚ)))] ∧
    (penaltySetup [([(0, PauliAct.X)], ((1 : ℚ), (0 : ℚ)))]
        [([(0, PauliAct.X)], ((1 / 2 : ℚ), (0 : ℚ))),
         ([(0, PauliAct.Z)], ((2 : ℚ), (0 : ℚ)))]).poolArgsHam =
      (penaltySetup [([(0, PauliAct.X)], ((1 : ℚ), (0 : ℚ)))]
        [([(0, PauliAct.X)], ((1 / 2 : ℚ), (0 : ℚ))),
         ([(0, PauliAct.Z)], ((2 : ℚ), (0 : ℚ)))]).workingHam ∧
    (penaltySetup [([(0, PauliAct.X)], ((1 : ℚ), (0 : ℚ)))]
        [([(0, PauliAct.X)], ((1 / 2 : ℚ), (0 : ℚ))),
         ([(0, PauliAct.Z)], ((2 : ℚ), (0 : ℚ)))]).reportedHam =
      [([(0, PauliAct.X)], ((1 : ℚ), (0 : ℚ)))] ∧
    coeffOf (penaltySetup [([(0, PauliAct.X)], ((1 : ℚ), (0 : ℚ)))]
        [([(0, PauliAct.X)], ((1 / 2 : ℚ), (0 : ℚ))),
         ([(0, PauliAct.Z)], ((2 : ℚ), (0 : ℚ)))]).workingHam [(0, PauliAct.X)] =
      cadd (coeffOf [([(0, PauliAct.X)], ((1 : ℚ), (0 : ℚ)))] [(0, PauliAct.X)])
        (coeffOf [([(0, PauliAct.X)], ((1 / 2 : ℚ), (0 : ℚ))),
          ([(0, PauliAct.Z)], ((2 : ℚ), (0 : ℚ)))] [(0, PauliAct.X)]) := by
  have h := c6_penalized_run_composition
    [([(0, PauliAct.X)], ((1 : ℚ), (0 : ℚ)))]
    [([(0, PauliAct.X)], ((1 / 2 : ℚ), (0 : ℚ))),
     ([(0, PauliAct.Z)], ((2 : ℚ), (0 : ℚ)))] (by decide) (by decide)
  exact ⟨h.1, h.2.1, h.2.2.1, h.2.2.2 [(0, PauliAct.X)]⟩

/-! ## Claim C7 -/

/-- C7: for every configuration (pool, gradient/optimizer/energy oracles,
tolerance) and finite `max_cycles`, the ADAPT loop halts after finitely many
growth cycles `k ≤ max_cycles` — each growth cycle appends exactly one
generator and records exactly one energy — and ends in CONVERGED or
EXHAUSTED. -/
theorem c7_adapt_loop_halts (pool : List GenOp)
    (grad : List (GenOp × ℚ) → GenOp → ℚ)
    (optimize : List (GenOp × ℚ) → List ℚ)
    (energy : List (GenOp × ℚ) → ℚ) (tol : ℚ) (max_cycles : Nat)
    (s0 : AdaptState) :
    ∃ k, k ≤ max_cycles ∧
      (adaptLoop pool grad optimize energy tol max_cycles s0).1.ansatz.length
          = s0.ansatz.length + k ∧
      (adaptLoop pool grad optimize energy tol max_cycles s0).1.energies.length
          = s0.energies.length + k ∧
      ((adaptLoop pool grad optimize energy tol max_cycles s0).2 =
          AdaptStatus.CONVERGED ∨
        (adaptLoop pool grad optimize energy tol max_cycles s0).2 =
          AdaptStatus.EXHAUSTED) := by
  induction max_cycles generalizing s0 with
  | zero =>
    refine ⟨0, Nat.le_refl 0, ?_⟩
    simp only [adaptLoop]
    by_cases hconv : maxAbsGradient (grad s0.ansatz) pool < tol
    · rw [if_pos hconv]
      exact ⟨by simp, by simp, Or.inl rfl⟩
    · rw [if_neg hconv]
      exact ⟨by simp, by simp, Or.inr rfl⟩
  | succ m ih =>
    by_cases hconv : maxAbsGradient (grad s0.ansatz) pool < tol
    · refine ⟨0, Nat.zero_le _, ?_⟩
      simp only [adaptLoop]
      rw [if_pos hconv]
      exact ⟨by simp, by simp, Or.inl rfl⟩
    · cases hsel : selectBest (grad s0.ansatz) pool with
      | none =>
        refine ⟨0, Nat.zero_le _, ?_⟩
        simp only [adaptLoop, hsel]
        rw [if_neg hconv]
        exact ⟨by simp, by simp, Or.inl rfl⟩
      | some g =>
        set S : AdaptState :=
          ⟨List.mapIdx (fun (i : Nat) (gp : GenOp × ℚ) =>
              (gp.1, (optimize (s0.ansatz ++ [(g, 0)])).getD i gp.2))
            (s0.ansatz ++ [(g, 0)]),
            s0.energies ++ [energy (List.mapIdx
              (fun (i : Nat) (gp : GenOp × ℚ) =>
                (gp.1, (optimize (s0.ansatz ++ [(g, 0)])).getD i gp.2))
              (s0.ansatz ++ [(g, 0)]))]⟩ with hS
        have hred : adaptLoop pool grad optimize energy tol (m + 1) s0 =
            adaptLoop pool grad optimize energy tol m S := by
          simp only [adaptLoop, hsel]
          rw [if_neg hconv, hS]
        have hSa : S.ansatz.length = s0.ansatz.length + 1 := by
          rw [hS]
          simp
        have hSe : S.energies.length = s0.energies.length + 1 := by
          rw [hS]
          simp
        obtain ⟨k, hk, hlen, helen, hst⟩ := ih S
        refine ⟨k + 1, by omega, ?_, ?_, ?_⟩
        · rw [hred, hlen, hSa]
          omega
        · rw [hred, helen, hSe]
          omega
        · rw [hred]
          exact hst

/-! ## Lemmas for the HEA circuit (C9) -/

theorem variationalGates_append (a b : List QGate) :
    variationalGates (a ++ b) = variationalGates a ++ variationalGates b := by
  unfold variationalGates
  exact List.filter_append a b

theorem EulerCircuit_succ (n : Nat) :
    EulerCircuit (n + 1) = EulerCircuit n ++
      [⟨.RZ, n, none, 0, true⟩, ⟨.RX, n, none, 0, true⟩,
        ⟨.RZ, n, none, 0, true⟩] := by
  unfold EulerCircuit
  rw [List.range_succ, List.foldl_append]
  simp [addGate]

theorem length_variationalGates_Euler (n : Nat) :
    (variationalGates (EulerCircuit n)).length = 3 * n := by
  induction n with
  | zero => rfl
  | succ m ih =>
    rw [EulerCircuit_succ, variationalGates_append, List.length_append, ih]
    simp [variationalGates, List.filter]
    omega

theorem mem_foldl_addGate {α : Type} (f : α → QGate) (l : List α)
    (init : List QGate) (g : QGate)
    (hg : g ∈ l.foldl (fun c x => addGate c (f x)) init) :
    g ∈ init ∨ ∃ x ∈ l, g = f x := by
  induction l generalizing init with
  | nil => exact Or.inl hg
  | cons x rest ih =>
    rw [List.foldl_cons] at hg
    rcases ih (addGate init (f x)) hg with h | h
    · unfold addGate at h
      rcases List.mem_append.mp h with h | h
      · exact Or.inl h
      · rw [List.mem_singleton] at h
        exact Or.inr ⟨x, List.mem_cons_self x rest, h⟩
    · obtain ⟨y, hy, hgy⟩ := h
      exact Or.inr ⟨y, List.mem_cons_of_mem x hy, hgy⟩

theorem entangler_not_variational (n : Nat) (g : QGate)
    (hg : g ∈ EntanglerCircuit n) : g.is_variational = false := by
  unfold EntanglerCircuit at hg
  rcases mem_foldl_addGate _ _ _ g hg with h | h
  · rcases mem_foldl_addGate _ _ _ g h with h' | h'
    · exact absurd h' (List.not_mem_nil g)
    · obtain ⟨x, _, hgx⟩ := h'
      rw [hgx]
  · obtain ⟨x, _, hgx⟩ := h
    rw [hgx]

theorem variationalGates_Entangler (n : Nat) :
    variationalGates (EntanglerCircuit n) = [] := by
  unfold variationalGates
  rw [List.filter_eq_nil_iff]
  intro g hg
  rw [entangler_not_variational n g hg]
  simp

theorem HEACircuit_succ (n l : Nat) :
    HEACircuit n (l + 1) =
      (HEACircuit n l ++ EntanglerCircuit n) ++ EulerCircuit n := by
  unfold HEACircuit
  rw [List.range_succ, List.foldl_append]
  rfl

theorem length_variationalGates_HEA (n l : Nat) :
    (variationalGates (HEACircuit n l)).length = n * 3 * (l + 1) := by
  induction l with
  | zero =>
    have h0 : HEACircuit n 0 = EulerCircuit n := rfl
    rw [h0, length_variationalGates_Euler]
    ring
  | succ m ih =>
    rw [HEACircuit_succ, variationalGates_append, variationalGates_append,
      variationalGates_Entangler, List.length_append, List.length_append,
      ih, length_variationalGates_Euler]
    simp only [List.length_nil]
    ring

theorem variationalGates_refCircuit (a b : Nat) :
    variationalGates (refCircuit a b) = [] := by
  unfold variationalGates refCircuit
  rw [List.filter_eq_nil_iff]
  intro g hg
  obtain ⟨q, _, hq⟩ := List.mem_map.mp hg
  rw [← hq]
  simp

theorem variationalGates_build_circuit (nq nl nso ne : Nat) :
    variationalGates (build_circuit nq nl nso ne) =
      variationalGates (HEACircuit nq nl) := by
  simp only [build_circuit]
  split
  · rw [variationalGates_append, variationalGates_refCircuit]
    rfl
  · rfl

theorem getElem_mapIdx_fn {α β : Type} (l : List α) (f : Nat → α → β)
    (i : Nat) (h : i < l.length) (h' : i < (l.mapIdx f).length) :
    (l.mapIdx f)[i] = f i l[i] := by
  have hg := List.get_mapIdx l f i h
  rwa [List.get_eq_getElem, List.get_eq_getElem] at hg

theorem update_var_params_upto (gs : List QGate) (ps : Nat → ℚ) (k : Nat)
    (hk : k ≤ gs.length) :
    update_var_params gs k ps =
      some (gs.mapIdx (fun i g =>
        if i < k then { g with parameter := ps i } else g)) := by
  induction k with
  | zero =>
    unfold update_var_params
    rw [List.range_zero, List.foldl_nil]
    congr 1
    apply List.ext_getElem
    · rw [List.length_mapIdx]
    · intro j h1 h2
      rw [getElem_mapIdx_fn gs _ j h1 h2]
      rw [if_neg (by omega)]
  | succ k ihk =>
    have hk' : k ≤ gs.length := Nat.le_of_succ_le hk
    unfold update_var_params at ihk ⊢
    rw [List.range_succ, List.foldl_append, ihk hk', List.foldl_cons,
      List.foldl_nil, Option.some_bind]
    unfold setParamAt
    have hklt : k < (gs.mapIdx fun i g =>
        if i < k then { g with parameter := ps i } else g).length := by
      rw [List.length_mapIdx]
      omega
    rw [dif_pos hklt]
    congr 1
    apply List.ext_getElem
    · rw [List.length_set, List.length_mapIdx, List.length_mapIdx]
    · intro j h1 h2
      have hjgs : j < gs.length := by
        have := h2
        rwa [List.length_mapIdx] at this
      by_cases hjk : j = k
      · subst hjk
        rw [List.getElem_set_self h1]
        rw [getElem_mapIdx_fn gs _ j hjgs h2, if_pos (by omega),
          List.get_eq_getElem, getElem_mapIdx_fn gs _ j hjgs (by
            rw [List.length_mapIdx]
            exact hjgs), if_neg (by omega)]
      · rw [List.getElem_set_ne (fun heq => hjk heq.symm)]
        rw [getElem_mapIdx_fn gs _ j hjgs (by
            rw [List.length_mapIdx]
            exact hjgs),
          getElem_mapIdx_fn gs _ j hjgs h2]
        by_cases hjlt : j < k
        · rw [if_pos hjlt, if_pos (by omega)]
        · rw [if_neg hjlt, if_neg (by omega)]

theorem update_var_params_full (gs : List QGate) (ps : Nat → ℚ) :
    update_var_params gs gs.length ps =
      some (gs.mapIdx (fun i g => { g with parameter := ps i })) := by
  rw [update_var_params_upto gs ps gs.length (Nat.le_refl _)]
  congr 1
  apply List.ext_getElem
  · rw [List.length_mapIdx, List.length_mapIdx]
  · intro j h1 h2
    have hjgs : j < gs.length := by
      have := h1
      rwa [List.length_mapIdx] at this
    rw [getElem_mapIdx_fn gs _ j hjgs h1, getElem_mapIdx_fn gs _ j hjgs h2,
      if_pos hjgs]

/-! ## Claim C9 -/

/-- C9: for every `n_qubits` and `n_layers`, the circuit built by
`HEA.build_circuit` contains exactly `n_qubits * 3 * (n_layers + 1)`
variational gates (the CNOT entanglers and the reference-state X gates are
non-variational), equal to the ansatz's `n_var_params`; hence
`update_var_params` assigns a parameter to every variational gate exactly
once and never indexes past the end of the variational-gate list. -/
theorem c9_var_params_match_circuit (nq nl nso ne : Nat) (ps : Nat → ℚ) :
    (variationalGates (build_circuit nq nl nso ne)).length =
      n_var_params nq nl ∧
    update_var_params (variationalGates (build_circuit nq nl nso ne))
        (n_var_params nq nl) ps =
      some ((variationalGates (build_circuit nq nl nso ne)).mapIdx
        (fun i g => { g with parameter := ps i })) := by
  have hlen : (variationalGates (build_circuit nq nl nso ne)).length =
      n_var_params nq nl := by
    rw [variationalGates_build_circuit, length_variationalGates_HEA]
    rfl
  refine ⟨hlen, ?_⟩
  rw [← hlen]
  exact update_var_params_full _ ps

/-! ## Claim C10 -/

/-- C10: `HEA.set_var_params` raises ValueError (result `none`) exactly when
its argument is an explicit vector whose length differs from
`n_var_params`, and in that case `self.var_params` is left unchanged; in
every non-raising case it stores and returns a parameter vector of length
`n_var_params`. -/
theorem c10_set_var_params_contract (rand : Nat → List ℚ) (s : HEAState)
    (arg : VarParamsArg) (hrand : ∀ m, (rand m).length = m) :
    ((set_var_params rand s arg).2 = none ↔
      ∃ v, arg = VarParamsArg.vec v ∧ v.length ≠ s.nvp) ∧
    ((set_var_params rand s arg).2 = none →
      (set_var_params rand s arg).1 = s) ∧
    (∀ v, (set_var_params rand s arg).2 = some v →
      v.length = s.nvp ∧
      (set_var_params rand s arg).1 = { s with var_params := some v }) := by
  cases arg with
  | noArg =>
    refine ⟨⟨fun h => absurd h (by simp [set_var_params]), ?_⟩, ?_, ?_⟩
    · rintro ⟨v, hv, _⟩
      exact absurd hv (by simp)
    · intro h
      exact absurd h (by simp [set_var_params])
    · intro v hv
      simp only [set_var_params] at hv ⊢
      injection hv with hv
      rw [← hv]
      exact ⟨hrand s.nvp, rfl⟩
  | onesArg =>
    refine ⟨⟨fun h => absurd h (by simp [set_var_params]), ?_⟩, ?_, ?_⟩
    · rintro ⟨v, hv, _⟩
      exact absurd hv (by simp)
    · intro h
      exact absurd h (by simp [set_var_params])
    · intro v hv
      simp only [set_var_params] at hv ⊢
      injection hv with hv
      rw [← hv]
      exact ⟨List.length_replicate s.nvp 1, rfl⟩
  | vec v =>
    by_cases hlen : v.length ≠ s.nvp
    · have hres : set_var_params rand s (VarParamsArg.vec v) = (s, none) := by
        simp only [set_var_params]
        rw [if_pos hlen]
      rw [hres]
      refine ⟨⟨fun _ => ⟨v, rfl, hlen⟩, fun _ => rfl⟩, fun _ => rfl, ?_⟩
      intro w hw
      exact absurd hw (by simp)
    · have hres : set_var_params rand s (VarParamsArg.vec v) =
          ({ s with var_params := some v }, some v) := by
        simp only [set_var_params]
        rw [if_neg hlen]
      rw [hres]
      refine ⟨⟨fun h => absurd h (by simp), ?_⟩, ?_, ?_⟩
      · rintro ⟨w, hw, hwlen⟩
        injection hw with hw
        exact absurd (hw ▸ hwlen) hlen
      · intro h
        exact absurd h (by simp)
      · intro w hw
        injection hw with hw
        rw [← hw]
        exact ⟨by omega, rfl⟩

/-- Witness for C10 at a concrete mismatched vector: a state with
`n_var_params = 2` and the argument `[1]` raise (result `none`) and leave
the state unchanged. -/
theorem c10_witness :
    ((set_var_params (fun m => List.replicate m 0) ⟨2, none⟩
        (VarParamsArg.vec [(1 : ℚ)])).2 = none ↔
      ∃ v, VarParamsArg.vec [(1 : ℚ)] = VarParamsArg.vec v ∧
        v.length ≠ (⟨2, none⟩ : HEAState).nvp) ∧
    ((set_var_params (fun m => List.replicate m 0) ⟨2, none⟩
        (VarParamsArg.vec [(1 : ℚ)])).2 = none →
      (set_var_params (fun m => List.replicate m 0) ⟨2, none⟩
        (VarParamsArg.vec [(1 : ℚ)])).1 = ⟨2, none⟩) ∧
    (∀ v, (set_var_params (fun m => List.replicate m 0) ⟨2, none⟩
        (VarParamsArg.vec [(1 : ℚ)])).2 = some v →
      v.length = (⟨2, none⟩ : HEAState).nvp ∧
      (set_var_params (fun m => List.replicate m 0) ⟨2, none⟩
        (VarParamsArg.vec [(1 : ℚ)])).1 =
          { (⟨2, none⟩ : HEAState) with var_params := some v }) :=
  c10_set_var_params_contract (fun m => List.replicate m 0) ⟨2, none⟩
    (VarParamsArg.vec [(1 : ℚ)]) (fun m => List.length_replicate m 0)
